import Mathlib

/-!
Verification of the allocation engine of the `planner` repository
(`src/planner/models.py`, `src/planner/scheduler.py`).

Calendar dates are embedded as natural numbers counting days from an epoch
that falls on a Monday, so `d % 7` is the Python `date.weekday()` value
(0 = Monday, ..., 6 = Sunday).  The engine only adds day offsets to dates,
compares dates, and asks for the weekday, so this embedding is faithful.
Python floats are embedded as rationals.
-/

namespace Planner

/-- Weekday test: Python `date.weekday() < 5` (Monday..Friday). -/
def isWeekday (d : Nat) : Bool := decide (d % 7 < 5)

/-- Default color palette from `src/planner/models.py`. -/
def DEFAULT_COLORS : List String :=
  ["\x1b[92m", "\x1b[94m", "\x1b[93m", "\x1b[95m", "\x1b[96m", "\x1b[91m"]

/-- Project record from `src/planner/models.py`.  Modelled from the spec:
the `priority` field (integer, default 0, higher = more important) is used
throughout `src/planner/scheduler.py` and the tests but is missing from the
`Project` dataclass in `src/planner/models.py`; it is modelled here with the
spec's default of 0.  `color_index` embeds the `_color_index` field. -/
structure Project where
  name : String
  end_date : Nat
  remaining_days : ℚ
  start_date : Option Nat := none
  renewal_days : Option ℚ := none
  is_renewal : Bool := false
  parent_name : Option String := none
  color : Option String := none
  color_index : Nat := 0
  priority : Int := 0
deriving DecidableEq

/-- Python `int()` truncation toward zero of a rational (`int(remaining_days)`). -/
def ratTrunc (q : ℚ) : Int :=
  if 0 ≤ q.num then ((q.num.toNat / q.den : Nat) : Int)
  else -((((-q.num).toNat / q.den : Nat) : Int))

/-- `Project.__post_init__`: assign a default color when none is given. -/
def postInit (p : Project) : Project :=
  if p.color = none then
    { p with color := some (DEFAULT_COLORS.getD (p.color_index % DEFAULT_COLORS.length) "") }
  else p

/-- `Project.slots_remaining`: `int(self.remaining_days)`. -/
def Project.slots_remaining (p : Project) : Int := ratTrunc p.remaining_days

/-- A day slot, possibly assigned to a project (`src/planner/models.py`). -/
structure ScheduledSlot where
  date : Nat
  project : Option Project := none
deriving DecidableEq

/-- A complete schedule (`src/planner/models.py`). -/
structure Schedule where
  slots : List ScheduledSlot := []
  start_date : Option Nat := none
  end_date : Option Nat := none
deriving DecidableEq

/-- `Schedule.get_project_slots`: slots whose assigned project equals `p`. -/
def Schedule.get_project_slots (s : Schedule) (p : Project) : List ScheduledSlot :=
  s.slots.filter (fun sl => sl.project = some p)

/-- `Scheduler._count_weekdays_inclusive` from `src/planner/scheduler.py`:
full-week decomposition plus a bounded scan of the remainder. -/
def countWeekdaysInclusive (start e : Nat) : Nat :=
  if e < start then 0
  else
    let totalDays := e - start + 1
    let fullWeeks := totalDays / 7
    let remainder := totalDays % 7
    fullWeeks * 5 + (List.range remainder).countP (fun i => decide ((start % 7 + i) % 7 < 5))

/-- Reference day-by-day weekday count, following the spec text: iterate every
date `d` in `[start, e]` and count those whose weekday is Monday..Friday. -/
def refCountWeekdays (start e : Nat) : Nat :=
  (((List.range (e + 1 - start)).map (start + ·)).filter (fun d => isWeekday d)).length

/-- End of the planning horizon: `start_date + timedelta(weeks=num_weeks)`. -/
def horizonEnd (startDate : Nat) (numWeeks : Nat) : Nat := startDate + 7 * numWeeks

/-- Renewal generation for one base project (loop body of
`Scheduler._generate_renewal_projects`). -/
def renewalFor (scheduleEnd : Nat) (p : Project) : Option Project :=
  match p.renewal_days with
  | some rd =>
    if 0 < rd then
      let renewalStart := p.end_date + 1
      let renewalEnd := renewalStart + 365
      if renewalStart ≤ scheduleEnd then
        some { name := p.name ++ " (Renewal)"
               end_date := renewalEnd
               remaining_days := rd
               start_date := some renewalStart
               renewal_days := none
               is_renewal := true
               parent_name := some p.name
               color := p.color
               color_index := p.color_index
               priority := p.priority }
      else none
    else none
  | none => none

/-- `Scheduler._generate_renewal_projects`: copy the base list, then append a
renewal for each qualifying base project in order. -/
def generateRenewalProjects (base : List Project) (startDate : Nat) (numWeeks : Nat) :
    List Project :=
  base.foldl (fun acc p => acc ++ (renewalFor (horizonEnd startDate numWeeks) p).toList) base

/-- Lexicographic comparison step: compare one key, fall through to `rest` on a tie.
Chains of these embed Python tuple-key comparisons used with `list.sort`/`sorted`. -/
def lexProp {α : Type} {κ : Type} [LinearOrder κ] (key : α → κ) (rest : α → α → Prop)
    (p q : α) : Prop :=
  key p < key q ∨ (key p = key q ∧ rest p q)

instance lexPropDecidable {α κ : Type} [LinearOrder κ] (key : α → κ) (rest : α → α → Prop)
    [DecidableRel rest] : DecidableRel (lexProp key rest) :=
  fun p q => inferInstanceAs (Decidable (key p < key q ∨ (key p = key q ∧ rest p q)))

/-- Final comparison level: plain `≤` on one key. -/
def leOfKey {α : Type} {κ : Type} [LinearOrder κ] (key : α → κ) (p q : α) : Prop :=
  key p ≤ key q

instance leOfKeyDecidable {α κ : Type} [LinearOrder κ] (key : α → κ) :
    DecidableRel (leOfKey key) :=
  fun p q => inferInstanceAs (Decidable (key p ≤ key q))

/-- Tie-break order of the must-do and forced-set sorts in
`Scheduler._get_paced_project`: smallest `(workdays_left - remaining_work)`,
then earliest `end_date`, then highest `priority`, then smallest `name`. -/
abbrev forceLE (d : Nat) (rem : Project → Int) : Project → Project → Prop :=
  lexProp (fun p => (countWeekdaysInclusive d p.end_date : Int) - rem p)
    (lexProp Project.end_date
      (lexProp (fun p => -p.priority) (leOfKey Project.name)))

/-- Order of the pacing-rule sort in `Scheduler._get_paced_project`:
highest credit, then earliest `end_date`, then highest `priority`, then name. -/
abbrev pacingLE (credit : Project → ℚ) : Project → Project → Prop :=
  lexProp (fun p => -credit p)
    (lexProp Project.end_date
      (lexProp (fun p => -p.priority) (leOfKey Project.name)))

/-- Static frontload sort key from `Scheduler._create_schedule_frontload`:
`(-priority, end_date, -slots_remaining)`.  Note: no name component. -/
abbrev frontloadLE : Project → Project → Prop :=
  lexProp (fun p => -p.priority)
    (lexProp Project.end_date (leOfKey (fun p => -p.slots_remaining)))

/-- First minimal element of a list under a total preorder: the element a stable
sort places first, i.e. Python `l.sort(key=...)` followed by `l[0]`. -/
def selectBest {α : Type} (le : α → α → Prop) [DecidableRel le] : List α → Option α
  | [] => none
  | a :: as => some (as.foldl (fun best x => if le best x then best else x) a)

/-- Pacing-credit threshold `1e-9` from `Scheduler._get_paced_project`,
written with `mkRat` so that comparisons against it evaluate in the kernel. -/
def PACING_EPS : ℚ := mkRat 1 1000000000

/-- Sanity check: the threshold is the rational `10^-9`. -/
theorem PACING_EPS_eq : PACING_EPS = 1 / 1000000000 := by
  unfold PACING_EPS
  rw [Rat.mkRat_eq_div]
  norm_num

/-- Start gate used by both allocators:
`project.start_date is not None and current_date < project.start_date`. -/
def beforeStart (p : Project) (d : Nat) : Bool :=
  match p.start_date with
  | some s => decide (d < s)
  | none => false

/-- Activity test of `Scheduler._get_paced_project`: remaining work, started,
and not past the deadline. -/
def isActive (rem : Project → Int) (d : Nat) (p : Project) : Bool :=
  decide (0 < rem p) && !(beforeStart p d) && decide (d ≤ p.end_date)

/-- Active projects, in `remaining_work.items()` order. -/
def activeList (d : Nat) (rem : Project → Int) (keys : List Project) : List Project :=
  keys.filter (fun p => isActive rem d p)

/-- Must-do qualifiers: `workdays_left > 0 and remaining_work[project] >= workdays_left`. -/
def mustDoList (d : Nat) (rem : Project → Int) (active : List Project) : List Project :=
  active.filter (fun p =>
    decide (0 < countWeekdaysInclusive d p.end_date) &&
    decide ((countWeekdaysInclusive d p.end_date : Int) ≤ rem p))

/-- Cumulative feasibility guard: first deadline `D` (ascending) with positive
available workdays whose required work meets or exceeds them. -/
def forcedDeadline (d : Nat) (rem : Project → Int) (active : List Project) : Option Nat :=
  (List.insertionSort (· ≤ ·) (active.map Project.end_date)).find? (fun D =>
    decide (0 < countWeekdaysInclusive d D) &&
    decide ((countWeekdaysInclusive d D : Int) ≤
      (((active.filter (fun p => decide (p.end_date ≤ D))).map rem).sum)))

/-- `Scheduler._get_paced_project`: must-do rule, then cumulative feasibility
rule, then pacing rule, else no project. -/
def getPacedProject (d : Nat) (keys : List Project) (rem : Project → Int)
    (credit : Project → ℚ) : Option Project :=
  let active := activeList d rem keys
  match selectBest (forceLE d rem) (mustDoList d rem active) with
  | some p => some p
  | none =>
    let forcedSet : List Project :=
      match forcedDeadline d rem active with
      | some D => active.filter (fun p => decide (p.end_date ≤ D))
      | none => []
    match selectBest (forceLE d rem) forcedSet with
    | some p => some p
    | none =>
      selectBest (pacingLE credit) (active.filter (fun p => decide (PACING_EPS < credit p)))

/-- Pacing rate of one project (`_create_schedule_paced` initialization). -/
def pacingRate (startDate : Nat) (p : Project) (rem : Int) : ℚ :=
  let effectiveStart := p.start_date.getD startDate
  let totalWorkdays := countWeekdaysInclusive (max startDate effectiveStart) p.end_date
  if rem ≤ 0 ∨ totalWorkdays ≤ 0 then 0 else (rem : ℚ) / (totalWorkdays : ℚ)

/-- Credit accrual loop of `_create_schedule_paced`: every project that still
has work, has started, and is not past its deadline gains its rate. -/
def accrueCredits (projects : List Project) (rate : Project → ℚ) (rem : Project → Int)
    (d : Nat) (credit : Project → ℚ) : Project → ℚ :=
  projects.foldl
    (fun cr p =>
      if rem p ≤ 0 then cr
      else if beforeStart p d then cr
      else if p.end_date < d then cr
      else Function.update cr p (cr p + rate p))
    credit

/-- Mutable state of the paced day loop. -/
structure PacedState where
  rem : Project → Int
  credit : Project → ℚ
  slots : List ScheduledSlot

/-- One calendar day of `_create_schedule_paced`: skip weekends; otherwise
accrue credits, pick a project, record the slot, and spend budget and credit. -/
def pacedStep (projects keys : List Project) (rate : Project → ℚ)
    (st : PacedState) (d : Nat) : PacedState :=
  if isWeekday d then
    let credit1 := accrueCredits projects rate st.rem d st.credit
    match getPacedProject d keys st.rem credit1 with
    | some p =>
        { rem := Function.update st.rem p (st.rem p - 1)
          credit := Function.update credit1 p (credit1 p - 1)
          slots := st.slots ++ [{ date := d, project := some p }] }
    | none => { rem := st.rem, credit := credit1, slots := st.slots ++ [{ date := d }] }
  else st

/-- Insertion order of Python dict keys built from a list: first occurrences. -/
def dedupFirst (l : List Project) : List Project :=
  l.foldl (fun acc p => if p ∈ acc then acc else acc ++ [p]) []

/-- Final loop state of `Scheduler._create_schedule_paced`: expand renewals,
initialize `remaining_work` from `slots_remaining`, credits at 0, rates fixed
once, then walk every calendar day of the horizon. -/
def pacedFinal (base : List Project) (startDate : Nat) (numWeeks : Nat) : PacedState :=
  ((List.range (numWeeks * 7)).map (startDate + ·)).foldl
    (pacedStep (generateRenewalProjects base startDate numWeeks)
      (dedupFirst (generateRenewalProjects base startDate numWeeks))
      (fun p => pacingRate startDate p p.slots_remaining))
    ⟨fun p => p.slots_remaining, fun _ => 0, []⟩

/-- `Scheduler._create_schedule_paced`. -/
def createSchedulePaced (base : List Project) (startDate : Nat) (numWeeks : Nat) : Schedule :=
  { slots := (pacedFinal base startDate numWeeks).slots
    start_date := some startDate
    end_date := some (horizonEnd startDate numWeeks) }

/-- Mutable state of the frontload day loop. -/
structure FrontState where
  rem : Project → Int
  slots : List ScheduledSlot

/-- One calendar day of `_create_schedule_frontload`: first project in the
static order with remaining work that has started.  No deadline check. -/
def frontStep (sortedProjects : List Project) (st : FrontState) (d : Nat) : FrontState :=
  if isWeekday d then
    match sortedProjects.find? (fun c => decide (0 < st.rem c) && !(beforeStart c d)) with
    | some p =>
        { rem := Function.update st.rem p (st.rem p - 1)
          slots := st.slots ++ [{ date := d, project := some p }] }
    | none => { st with slots := st.slots ++ [{ date := d }] }
  else st

/-- Final loop state of `Scheduler._create_schedule_frontload`: expand
renewals, build the static sorted order (Python's stable `sorted`, embedded as
a stable insertion sort on the same key), then walk the horizon. -/
def frontFinal (base : List Project) (startDate : Nat) (numWeeks : Nat) : FrontState :=
  ((List.range (numWeeks * 7)).map (startDate + ·)).foldl
    (frontStep (List.insertionSort frontloadLE (generateRenewalProjects base startDate numWeeks)))
    ⟨fun p => p.slots_remaining, []⟩

/-- `Scheduler._create_schedule_frontload`. -/
def createScheduleFrontload (base : List Project) (startDate : Nat) (numWeeks : Nat) :
    Schedule :=
  { slots := (frontFinal base startDate numWeeks).slots
    start_date := some startDate
    end_date := some (horizonEnd startDate numWeeks) }

/-- `Scheduler.create_schedule` facade: dispatch on the method string, raising
`ValueError` (embedded as `Except.error`) on anything else. -/
def createSchedule (base : List Project) (startDate : Nat) (numWeeks : Nat)
    (method : String) : Except String Schedule :=
  if method = "paced" then Except.ok (createSchedulePaced base startDate numWeeks)
  else if method = "frontload" then Except.ok (createScheduleFrontload base startDate numWeeks)
  else Except.error ("Unknown scheduling method: " ++ method ++ ". Use one of the two method names.")

/-- `Scheduler._assign_colors` body for one indexed project. -/
def assignColorsFrom (i : Nat) : List Project → List Project
  | [] => []
  | p :: ps =>
    (if p.color = none then
      { p with color_index := i
               color := some (DEFAULT_COLORS.getD (i % DEFAULT_COLORS.length) "") }
     else p) :: assignColorsFrom (i + 1) ps

/-- `Scheduler._assign_colors`: enumerate the projects and default missing colors. -/
def assignColors (ps : List Project) : List Project := assignColorsFrom 0 ps

/-- Scheduler instance state from `src/planner/scheduler.py`. -/
structure Scheduler where
  base_projects : List Project
  start_date : Nat
  projects : List Project

/-- `Scheduler.__init__`: store the projects (colors assigned in place, so the
caller-visible list is the result of `assignColors`). -/
def Scheduler.init (ps : List Project) (startDate : Nat) : Scheduler :=
  { base_projects := assignColors ps
    start_date := startDate
    projects := assignColors ps }

/-- One `create_schedule` call on a scheduler instance: produce the schedule
and overwrite the working project list with the expanded list. -/
def Scheduler.create_schedule (s : Scheduler) (numWeeks : Nat) (method : String) :
    Except String (Schedule × Scheduler) :=
  (createSchedule s.base_projects s.start_date numWeeks method).map
    (fun sched =>
      (sched, { s with projects := generateRenewalProjects s.base_projects s.start_date numWeeks }))

/-- Run a sequence of `create_schedule` calls against one scheduler instance. -/
def runCalls (s : Scheduler) (calls : List (Nat × String)) : Scheduler :=
  calls.foldl
    (fun sc c =>
      match sc.create_schedule c.1 c.2 with
      | Except.ok r => r.2
      | Except.error _ => sc)
    s

/-- Per-project statistics record (`ProjectStats` in `src/planner/scheduler.py`). -/
structure ProjectStats where
  project : Project
  total_slots_assigned : Nat
  slots_per_week : ℚ
  days_per_week : ℚ
  last_scheduled_date : Option Nat

/-- `ProjectStats.fully_scheduled`: all remaining work is scheduled. -/
def ProjectStats.fully_scheduled (s : ProjectStats) : Bool :=
  decide (s.project.slots_remaining ≤ (s.total_slots_assigned : Int))

/-- `Scheduler.get_statistics`. -/
def getStatistics (projects : List Project) (schedule : Schedule) : List ProjectStats :=
  let numWeeks : ℚ :=
    match schedule.start_date, schedule.end_date with
    | some s, some e => ((e - s : Nat) : ℚ) / 7
    | _, _ => 1
  projects.map (fun p =>
    let pslots := schedule.get_project_slots p
    { project := p
      total_slots_assigned := pslots.length
      slots_per_week := if 0 < numWeeks then (pslots.length : ℚ) / numWeeks else 0
      days_per_week := if 0 < numWeeks then (pslots.length : ℚ) / numWeeks else 0
      last_scheduled_date := (pslots.map (fun sl => sl.date)).max? })

/-! ### Calendar helper lemmas -/

theorem range7_weekday_count (t : Nat) :
    (List.range 7).countP (fun j => decide ((t + j) % 7 < 5)) = 5 := by
  have key : ∀ r : Nat, r < 7 →
      ((List.range 7).countP (fun j => decide ((r + j) % 7 < 5))) = 5 := by decide
  have hmod : ∀ j : Nat, (t + j) % 7 = (t % 7 + j) % 7 := fun j => by omega
  calc (List.range 7).countP (fun j => decide ((t + j) % 7 < 5))
      = (List.range 7).countP (fun j => decide ((t % 7 + j) % 7 < 5)) := by
        refine List.countP_congr (fun j _ => ?_)
        simp only [decide_eq_true_eq, hmod j]
    _ = 5 := key (t % 7) (Nat.mod_lt t (by norm_num))

theorem weekday_count_decompose (s : Nat) : ∀ n : Nat,
    (List.range n).countP (fun i => decide ((s + i) % 7 < 5))
      = (n / 7) * 5 + (List.range (n % 7)).countP (fun i => decide ((s + i) % 7 < 5)) := by
  intro n
  induction n using Nat.strong_induction_on with
  | _ n ih =>
    by_cases h : n < 7
    · rw [Nat.div_eq_of_lt h, Nat.mod_eq_of_lt h]; simp
    · obtain ⟨m, rfl⟩ : ∃ m, n = m + 7 := ⟨n - 7, by omega⟩
      rw [List.range_add, List.countP_append, List.countP_map]
      have hwin : (List.range 7).countP
          ((fun i => decide ((s + i) % 7 < 5)) ∘ fun x => m + x) = 5 := by
        have := range7_weekday_count (s + m)
        calc (List.range 7).countP ((fun i => decide ((s + i) % 7 < 5)) ∘ fun x => m + x)
            = (List.range 7).countP (fun j => decide ((s + m + j) % 7 < 5)) := by
              refine List.countP_congr (fun j _ => ?_)
              simp only [Function.comp_apply, decide_eq_true_eq]
              omega
          _ = 5 := this
      rw [hwin, ih m (by omega)]
      have h1 : (m + 7) / 7 = m / 7 + 1 := by omega
      have h2 : (m + 7) % 7 = m % 7 := by omega
      rw [h1, h2]; ring

theorem countWeekdays_eq_ref (s e : Nat) :
    countWeekdaysInclusive s e = refCountWeekdays s e := by
  unfold countWeekdaysInclusive refCountWeekdays
  by_cases h : e < s
  · rw [if_pos h, show e + 1 - s = 0 from by omega]; simp
  · rw [if_neg h, ← List.countP_eq_length_filter, List.countP_map]
    have hlen : e + 1 - s = e - s + 1 := by omega
    rw [hlen]
    have hcomp : ∀ n : Nat, (List.range n).countP ((fun d => isWeekday d) ∘ (s + ·))
        = (List.range n).countP (fun i => decide ((s + i) % 7 < 5)) := by
      intro n
      refine List.countP_congr (fun i _ => ?_)
      simp [isWeekday]
    rw [hcomp, weekday_count_decompose s (e - s + 1)]
    have hrem : (List.range ((e - s + 1) % 7)).countP (fun i => decide ((s % 7 + i) % 7 < 5))
        = (List.range ((e - s + 1) % 7)).countP (fun i => decide ((s + i) % 7 < 5)) := by
      refine List.countP_congr (fun i _ => ?_)
      simp only [decide_eq_true_eq]
      omega
    simp only [hrem]

/-! ### Truncation lemmas -/

theorem ratTrunc_nonneg {q : ℚ} (h : 0 ≤ q) : 0 ≤ ratTrunc q := by
  unfold ratTrunc
  rw [if_pos (Rat.num_nonneg.mpr h)]
  positivity

theorem ratTrunc_eq_zero {q : ℚ} (h0 : 0 ≤ q) (h1 : q < 1) : ratTrunc q = 0 := by
  unfold ratTrunc
  have hnn : 0 ≤ q.num := Rat.num_nonneg.mpr h0
  rw [if_pos hnn]
  have hlt : q.num < (q.den : Int) := by
    have hd : (0 : ℚ) < (q.den : ℚ) := by exact_mod_cast q.pos
    rw [← Rat.num_div_den q, div_lt_one hd] at h1
    exact_mod_cast h1
  have : q.num.toNat < q.den := by omega
  rw [Nat.div_eq_of_lt this]
  rfl

/-! ### Selection lemmas: `selectBest` is stable argmin -/

theorem selectBest_eq_none {α : Type} (le : α → α → Prop) [DecidableRel le] (l : List α) :
    selectBest le l = none ↔ l = [] := by
  cases l <;> simp [selectBest]

theorem foldl_pick_mem {α : Type} (le : α → α → Prop) [DecidableRel le] :
    ∀ (as : List α) (a : α),
      as.foldl (fun best x => if le best x then best else x) a ∈ a :: as := by
  intro as
  induction as with
  | nil => intro a; simp
  | cons x as ih =>
    intro a
    simp only [List.foldl_cons]
    by_cases hle : le a x
    · rw [if_pos hle]
      rcases List.mem_cons.mp (ih a) with h1 | h1
      · exact List.mem_cons.mpr (Or.inl h1)
      · exact List.mem_cons.mpr (Or.inr (List.mem_cons.mpr (Or.inr h1)))
    · rw [if_neg hle]
      rcases List.mem_cons.mp (ih x) with h1 | h1
      · refine List.mem_cons.mpr (Or.inr ?_)
        rw [h1]
        exact List.mem_cons_self x as
      · exact List.mem_cons.mpr (Or.inr (List.mem_cons.mpr (Or.inr h1)))

theorem selectBest_mem {α : Type} (le : α → α → Prop) [DecidableRel le] {l : List α} {p : α}
    (h : selectBest le l = some p) : p ∈ l := by
  cases l with
  | nil => simp [selectBest] at h
  | cons a as =>
    simp only [selectBest, Option.some.injEq] at h
    exact h ▸ foldl_pick_mem le as a

theorem foldl_pick_min {α : Type} (le : α → α → Prop) [DecidableRel le]
    (htotal : ∀ a b, le a b ∨ le b a) (htrans : ∀ a b c, le a b → le b c → le a c) :
    ∀ (as : List α) (a : α),
      le (as.foldl (fun best x => if le best x then best else x) a) a
      ∧ ∀ b ∈ as, le (as.foldl (fun best x => if le best x then best else x) a) b := by
  intro as
  induction as with
  | nil =>
    intro a
    exact ⟨(htotal a a).elim id id, by simp⟩
  | cons x as ih =>
    intro a
    simp only [List.foldl_cons]
    by_cases hle : le a x
    · rw [if_pos hle]
      refine ⟨(ih a).1, fun b hb => ?_⟩
      rcases List.mem_cons.mp hb with h1 | h1
      · exact h1 ▸ htrans _ a x (ih a).1 hle
      · exact (ih a).2 b h1
    · rw [if_neg hle]
      have hxa : le x a := (htotal a x).resolve_left hle
      refine ⟨htrans _ x a (ih x).1 hxa, fun b hb => ?_⟩
      rcases List.mem_cons.mp hb with h1 | h1
      · exact h1 ▸ (ih x).1
      · exact (ih x).2 b h1

theorem selectBest_min {α : Type} (le : α → α → Prop) [DecidableRel le]
    (htotal : ∀ a b, le a b ∨ le b a) (htrans : ∀ a b c, le a b → le b c → le a c)
    {l : List α} {p : α} (h : selectBest le l = some p) : ∀ q ∈ l, le p q := by
  cases l with
  | nil => simp [selectBest] at h
  | cons a as =>
    simp only [selectBest, Option.some.injEq] at h
    intro q hq
    rcases List.mem_cons.mp hq with h1 | h1
    · exact h1 ▸ h ▸ (foldl_pick_min le htotal htrans as a).1
    · exact h ▸ (foldl_pick_min le htotal htrans as a).2 q h1

/-! ### Lexicographic order lemmas -/

theorem lexProp_total {α κ : Type} [LinearOrder κ] (key : α → κ) (rest : α → α → Prop)
    (h : ∀ a b, rest a b ∨ rest b a) (a b : α) :
    lexProp key rest a b ∨ lexProp key rest b a := by
  rcases lt_trichotomy (key a) (key b) with hlt | heq | hgt
  · exact Or.inl (Or.inl hlt)
  · rcases h a b with hr | hr
    · exact Or.inl (Or.inr ⟨heq, hr⟩)
    · exact Or.inr (Or.inr ⟨heq.symm, hr⟩)
  · exact Or.inr (Or.inl hgt)

theorem lexProp_trans {α κ : Type} [LinearOrder κ] (key : α → κ) (rest : α → α → Prop)
    (h : ∀ a b c, rest a b → rest b c → rest a c) (a b c : α)
    (hab : lexProp key rest a b) (hbc : lexProp key rest b c) : lexProp key rest a c := by
  rcases hab with hab | ⟨hab, hr1⟩
  · rcases hbc with hbc | ⟨hbc, _⟩
    · exact Or.inl (lt_trans hab hbc)
    · exact Or.inl (hbc ▸ hab)
  · rcases hbc with hbc | ⟨hbc, hr2⟩
    · exact Or.inl (hab ▸ hbc)
    · exact Or.inr ⟨hab.trans hbc, h a b c hr1 hr2⟩

theorem leOfKey_total {α κ : Type} [LinearOrder κ] (key : α → κ) (a b : α) :
    leOfKey key a b ∨ leOfKey key b a := le_total (key a) (key b)

theorem leOfKey_trans {α κ : Type} [LinearOrder κ] (key : α → κ) (a b c : α)
    (hab : leOfKey key a b) (hbc : leOfKey key b c) : leOfKey key a c := le_trans hab hbc

theorem forceLE_total (d : Nat) (rem : Project → Int) (a b : Project) :
    forceLE d rem a b ∨ forceLE d rem b a :=
  lexProp_total _ _ (lexProp_total _ _ (lexProp_total _ _ (leOfKey_total _))) a b

theorem forceLE_trans (d : Nat) (rem : Project → Int) (a b c : Project)
    (hab : forceLE d rem a b) (hbc : forceLE d rem b c) : forceLE d rem a c :=
  lexProp_trans _ _ (lexProp_trans _ _ (lexProp_trans _ _ (leOfKey_trans _))) a b c hab hbc

theorem pacingLE_total (credit : Project → ℚ) (a b : Project) :
    pacingLE credit a b ∨ pacingLE credit b a :=
  lexProp_total _ _ (lexProp_total _ _ (lexProp_total _ _ (leOfKey_total _))) a b

theorem pacingLE_trans (credit : Project → ℚ) (a b c : Project)
    (hab : pacingLE credit a b) (hbc : pacingLE credit b c) : pacingLE credit a c :=
  lexProp_trans _ _ (lexProp_trans _ _ (lexProp_trans _ _ (leOfKey_trans _))) a b c hab hbc

theorem frontloadLE_total (a b : Project) : frontloadLE a b ∨ frontloadLE b a :=
  lexProp_total _ _ (lexProp_total _ _ (leOfKey_total _)) a b

theorem frontloadLE_trans (a b c : Project) (hab : frontloadLE a b) (hbc : frontloadLE b c) :
    frontloadLE a c :=
  lexProp_trans _ _ (lexProp_trans _ _ (leOfKey_trans _)) a b c hab hbc

instance : IsTotal Project frontloadLE := ⟨frontloadLE_total⟩

instance : IsTrans Project frontloadLE := ⟨frontloadLE_trans⟩

/-! ### Characterization of the paced selection -/

theorem isActive_iff (rem : Project → Int) (d : Nat) (p : Project) :
    isActive rem d p = true ↔ (0 < rem p ∧ beforeStart p d = false ∧ d ≤ p.end_date) := by
  unfold isActive
  cases hb : beforeStart p d <;> simp [hb]

theorem active_of_mem (d : Nat) (rem : Project → Int) (keys : List Project) {p : Project}
    (h : p ∈ activeList d rem keys) :
    0 < rem p ∧ beforeStart p d = false ∧ d ≤ p.end_date :=
  (isActive_iff rem d p).mp (List.mem_filter.mp h).2

theorem getPacedProject_isActive (d : Nat) (keys : List Project) (rem : Project → Int)
    (credit : Project → ℚ) (p : Project)
    (h : getPacedProject d keys rem credit = some p) :
    0 < rem p ∧ beforeStart p d = false ∧ d ≤ p.end_date := by
  simp only [getPacedProject] at h
  cases h1 : selectBest (forceLE d rem) (mustDoList d rem (activeList d rem keys)) with
  | some q =>
    rw [h1] at h
    simp only [Option.some.injEq] at h
    subst h
    have hq := selectBest_mem _ h1
    exact active_of_mem d rem keys (List.mem_filter.mp hq).1
  | none =>
    rw [h1] at h
    simp only at h
    cases hf : forcedDeadline d rem (activeList d rem keys) with
    | some D =>
      rw [hf] at h
      simp only at h
      cases h2 : selectBest (forceLE d rem)
          ((activeList d rem keys).filter (fun p => decide (p.end_date ≤ D))) with
      | some q =>
        rw [h2] at h
        simp only [Option.some.injEq] at h
        subst h
        exact active_of_mem d rem keys (List.mem_filter.mp (selectBest_mem _ h2)).1
      | none =>
        rw [h2] at h
        simp only at h
        exact active_of_mem d rem keys (List.mem_filter.mp (selectBest_mem _ h)).1
    | none =>
      rw [hf] at h
      simp only [selectBest] at h
      exact active_of_mem d rem keys (List.mem_filter.mp (selectBest_mem _ h)).1

theorem getPacedProject_of_mustDo (d : Nat) (keys : List Project) (rem : Project → Int)
    (credit : Project → ℚ)
    (h : mustDoList d rem (activeList d rem keys) ≠ []) :
    getPacedProject d keys rem credit
      = selectBest (forceLE d rem) (mustDoList d rem (activeList d rem keys)) := by
  simp only [getPacedProject]
  cases h1 : selectBest (forceLE d rem) (mustDoList d rem (activeList d rem keys)) with
  | some q => rfl
  | none => exact absurd ((selectBest_eq_none _ _).mp h1) h

theorem getPacedProject_of_pacing (d : Nat) (keys : List Project) (rem : Project → Int)
    (credit : Project → ℚ)
    (hm : mustDoList d rem (activeList d rem keys) = [])
    (hf : forcedDeadline d rem (activeList d rem keys) = none) :
    getPacedProject d keys rem credit
      = selectBest (pacingLE credit)
          ((activeList d rem keys).filter (fun p => decide (PACING_EPS < credit p))) := by
  simp only [getPacedProject, hm, hf]
  rfl

/-! ### Paced day-loop invariants -/

theorem pacedStep_conservation (projects keys : List Project) (rate : Project → ℚ)
    (st : PacedState) (d : Nat) (p : Project) :
    (pacedStep projects keys rate st d).rem p
      + (((pacedStep projects keys rate st d).slots.filter
            (fun sl => sl.project = some p)).length : Int)
    = st.rem p + ((st.slots.filter (fun sl => sl.project = some p)).length : Int) := by
  simp only [pacedStep]
  by_cases hw : isWeekday d = true
  · rw [if_pos hw]
    cases hq : getPacedProject d keys st.rem (accrueCredits projects rate st.rem d st.credit) with
    | none => simp
    | some q =>
      simp only [List.filter_append, List.length_append]
      by_cases hpq : q = p
      · subst hpq
        rw [Function.update_same]
        have hone : (List.filter (fun sl : ScheduledSlot => sl.project = some q)
            [({ date := d, project := some q } : ScheduledSlot)]).length = 1 := by simp
        rw [hone]
        push_cast
        ring
      · rw [Function.update_noteq (fun hc => hpq hc.symm)]
        have hne : ¬ (some q = some p) := by simpa using hpq
        simp only [List.filter_cons, List.filter_nil]
        rw [if_neg (by simpa using hne)]
        simp
  · rw [if_neg hw]

theorem pacedFoldl_conservation (projects keys : List Project) (rate : Project → ℚ)
    (days : List Nat) (st : PacedState) (p : Project) :
    (days.foldl (pacedStep projects keys rate) st).rem p
      + (((days.foldl (pacedStep projects keys rate) st).slots.filter
            (fun sl => sl.project = some p)).length : Int)
    = st.rem p + ((st.slots.filter (fun sl => sl.project = some p)).length : Int) := by
  induction days generalizing st with
  | nil => rfl
  | cons d ds ih =>
    simp only [List.foldl_cons]
    rw [ih (pacedStep projects keys rate st d), pacedStep_conservation]

theorem pacedStep_rem_nonneg (projects keys : List Project) (rate : Project → ℚ)
    (st : PacedState) (d : Nat) (p : Project) (h : 0 ≤ st.rem p) :
    0 ≤ (pacedStep projects keys rate st d).rem p := by
  simp only [pacedStep]
  by_cases hw : isWeekday d = true
  · rw [if_pos hw]
    cases hq : getPacedProject d keys st.rem (accrueCredits projects rate st.rem d st.credit) with
    | none => exact h
    | some q =>
      simp only
      by_cases hpq : p = q
      · subst hpq
        rw [Function.update_same]
        have := (getPacedProject_isActive _ _ _ _ _ hq).1
        omega
      · rw [Function.update_noteq hpq]
        exact h
  · rw [if_neg hw]
    exact h

theorem pacedFoldl_rem_nonneg (projects keys : List Project) (rate : Project → ℚ)
    (days : List Nat) (st : PacedState) (p : Project) (h : 0 ≤ st.rem p) :
    0 ≤ (days.foldl (pacedStep projects keys rate) st).rem p := by
  induction days generalizing st with
  | nil => exact h
  | cons d ds ih =>
    simp only [List.foldl_cons]
    exact ih _ (pacedStep_rem_nonneg projects keys rate st d p h)

theorem pacedStep_dates (projects keys : List Project) (rate : Project → ℚ)
    (st : PacedState) (d : Nat) :
    (pacedStep projects keys rate st d).slots.map (fun sl => sl.date)
      = st.slots.map (fun sl => sl.date) ++ (if isWeekday d then [d] else []) := by
  simp only [pacedStep]
  by_cases hw : isWeekday d = true
  · rw [if_pos hw, if_pos hw]
    cases hq : getPacedProject d keys st.rem (accrueCredits projects rate st.rem d st.credit) with
    | none => simp
    | some q => simp
  · rw [if_neg hw, if_neg hw]
    simp

theorem pacedFoldl_dates (projects keys : List Project) (rate : Project → ℚ)
    (days : List Nat) (st : PacedState) :
    ((days.foldl (pacedStep projects keys rate) st).slots.map (fun sl => sl.date))
      = st.slots.map (fun sl => sl.date) ++ days.filter (fun d => isWeekday d) := by
  induction days generalizing st with
  | nil => simp
  | cons d ds ih =>
    simp only [List.foldl_cons, List.filter_cons]
    rw [ih (pacedStep projects keys rate st d), pacedStep_dates]
    by_cases hw : isWeekday d = true <;> simp [hw]

theorem pacedStep_slot_mem (projects keys : List Project) (rate : Project → ℚ)
    (st : PacedState) (d : Nat) (sl : ScheduledSlot)
    (h : sl ∈ (pacedStep projects keys rate st d).slots) :
    sl ∈ st.slots
      ∨ ∀ q, sl.project = some q → (beforeStart q sl.date = false ∧ sl.date ≤ q.end_date) := by
  simp only [pacedStep] at h
  by_cases hw : isWeekday d = true
  · rw [if_pos hw] at h
    cases hq : getPacedProject d keys st.rem (accrueCredits projects rate st.rem d st.credit) with
    | none =>
      rw [hq] at h
      simp only [List.mem_append, List.mem_singleton] at h
      rcases h with h | h
      · exact Or.inl h
      · refine Or.inr (fun q hql => ?_)
        rw [h] at hql
        simp at hql
    | some q0 =>
      rw [hq] at h
      simp only [List.mem_append, List.mem_singleton] at h
      rcases h with h | h
      · exact Or.inl h
      · refine Or.inr (fun q hql => ?_)
        rw [h] at hql
        simp only [Option.some.injEq] at hql
        subst hql
        have := getPacedProject_isActive _ _ _ _ _ hq
        rw [h]
        exact ⟨this.2.1, this.2.2⟩
  · rw [if_neg hw] at h
    exact Or.inl h

theorem pacedFoldl_slot_mem (projects keys : List Project) (rate : Project → ℚ)
    (days : List Nat) (st : PacedState)
    (h0 : ∀ sl ∈ st.slots, ∀ q, sl.project = some q →
      (beforeStart q sl.date = false ∧ sl.date ≤ q.end_date)) :
    ∀ sl ∈ (days.foldl (pacedStep projects keys rate) st).slots, ∀ q, sl.project = some q →
      (beforeStart q sl.date = false ∧ sl.date ≤ q.end_date) := by
  induction days generalizing st with
  | nil => exact h0
  | cons d ds ih =>
    simp only [List.foldl_cons]
    refine ih (pacedStep projects keys rate st d) (fun sl hsl q hq => ?_)
    rcases pacedStep_slot_mem projects keys rate st d sl hsl with hmem | hp
    · exact h0 sl hmem q hq
    · exact hp q hq

/-! ### Frontload day-loop invariants -/

theorem frontStep_found (sortedProjects : List Project) (st : FrontState) (d : Nat)
    (p : Project)
    (h : sortedProjects.find? (fun c => decide (0 < st.rem c) && !(beforeStart c d)) = some p) :
    0 < st.rem p ∧ beforeStart p d = false := by
  have := List.find?_some h
  simp only [Bool.and_eq_true, decide_eq_true_eq, Bool.not_eq_true'] at this
  exact this

theorem frontStep_conservation (sortedProjects : List Project)
    (st : FrontState) (d : Nat) (p : Project) :
    (frontStep sortedProjects st d).rem p
      + (((frontStep sortedProjects st d).slots.filter
            (fun sl => sl.project = some p)).length : Int)
    = st.rem p + ((st.slots.filter (fun sl => sl.project = some p)).length : Int) := by
  simp only [frontStep]
  by_cases hw : isWeekday d = true
  · rw [if_pos hw]
    cases hq : sortedProjects.find? (fun c => decide (0 < st.rem c) && !(beforeStart c d)) with
    | none => simp
    | some q =>
      simp only [List.filter_append, List.length_append]
      by_cases hpq : q = p
      · subst hpq
        rw [Function.update_same]
        have hone : (List.filter (fun sl : ScheduledSlot => sl.project = some q)
            [({ date := d, project := some q } : ScheduledSlot)]).length = 1 := by simp
        rw [hone]
        push_cast
        ring
      · rw [Function.update_noteq (fun hc => hpq hc.symm)]
        have hne : ¬ (some q = some p) := by simpa using hpq
        simp only [List.filter_cons, List.filter_nil]
        rw [if_neg (by simpa using hne)]
        simp
  · rw [if_neg hw]

theorem frontFoldl_conservation (sortedProjects : List Project)
    (days : List Nat) (st : FrontState) (p : Project) :
    (days.foldl (frontStep sortedProjects) st).rem p
      + (((days.foldl (frontStep sortedProjects) st).slots.filter
            (fun sl => sl.project = some p)).length : Int)
    = st.rem p + ((st.slots.filter (fun sl => sl.project = some p)).length : Int) := by
  induction days generalizing st with
  | nil => rfl
  | cons d ds ih =>
    simp only [List.foldl_cons]
    rw [ih (frontStep sortedProjects st d), frontStep_conservation]

theorem frontStep_rem_nonneg (sortedProjects : List Project) (st : FrontState) (d : Nat)
    (p : Project) (h : 0 ≤ st.rem p) : 0 ≤ (frontStep sortedProjects st d).rem p := by
  simp only [frontStep]
  by_cases hw : isWeekday d = true
  · rw [if_pos hw]
    cases hq : sortedProjects.find? (fun c => decide (0 < st.rem c) && !(beforeStart c d)) with
    | none => exact h
    | some q =>
      simp only
      by_cases hpq : p = q
      · subst hpq
        rw [Function.update_same]
        have := (frontStep_found sortedProjects st d p hq).1
        omega
      · rw [Function.update_noteq hpq]
        exact h
  · rw [if_neg hw]
    exact h

theorem frontFoldl_rem_nonneg (sortedProjects : List Project)
    (days : List Nat) (st : FrontState) (p : Project) (h : 0 ≤ st.rem p) :
    0 ≤ (days.foldl (frontStep sortedProjects) st).rem p := by
  induction days generalizing st with
  | nil => exact h
  | cons d ds ih =>
    simp only [List.foldl_cons]
    exact ih _ (frontStep_rem_nonneg sortedProjects st d p h)

theorem frontStep_dates (sortedProjects : List Project) (st : FrontState) (d : Nat) :
    (frontStep sortedProjects st d).slots.map (fun sl => sl.date)
      = st.slots.map (fun sl => sl.date) ++ (if isWeekday d then [d] else []) := by
  simp only [frontStep]
  by_cases hw : isWeekday d = true
  · rw [if_pos hw, if_pos hw]
    cases hq : sortedProjects.find? (fun c => decide (0 < st.rem c) && !(beforeStart c d)) with
    | none => simp
    | some q => simp
  · rw [if_neg hw, if_neg hw]
    simp

theorem frontFoldl_dates (sortedProjects : List Project) (days : List Nat) (st : FrontState) :
    ((days.foldl (frontStep sortedProjects) st).slots.map (fun sl => sl.date))
      = st.slots.map (fun sl => sl.date) ++ days.filter (fun d => isWeekday d) := by
  induction days generalizing st with
  | nil => simp
  | cons d ds ih =>
    simp only [List.foldl_cons, List.filter_cons]
    rw [ih (frontStep sortedProjects st d), frontStep_dates]
    by_cases hw : isWeekday d = true <;> simp [hw]

theorem frontStep_slot_mem (sortedProjects : List Project) (st : FrontState) (d : Nat)
    (sl : ScheduledSlot) (h : sl ∈ (frontStep sortedProjects st d).slots) :
    sl ∈ st.slots ∨ ∀ q, sl.project = some q → beforeStart q sl.date = false := by
  simp only [frontStep] at h
  by_cases hw : isWeekday d = true
  · rw [if_pos hw] at h
    cases hq : sortedProjects.find? (fun c => decide (0 < st.rem c) && !(beforeStart c d)) with
    | none =>
      rw [hq] at h
      simp only [List.mem_append, List.mem_singleton] at h
      rcases h with h | h
      · exact Or.inl h
      · refine Or.inr (fun q hql => ?_)
        rw [h] at hql
        simp at hql
    | some q0 =>
      rw [hq] at h
      simp only [List.mem_append, List.mem_singleton] at h
      rcases h with h | h
      · exact Or.inl h
      · refine Or.inr (fun q hql => ?_)
        rw [h] at hql
        simp only [Option.some.injEq] at hql
        subst hql
        rw [h]
        exact (frontStep_found sortedProjects st d _ hq).2
  · rw [if_neg hw] at h
    exact Or.inl h

theorem frontFoldl_slot_mem (sortedProjects : List Project) (days : List Nat) (st : FrontState)
    (h0 : ∀ sl ∈ st.slots, ∀ q, sl.project = some q → beforeStart q sl.date = false) :
    ∀ sl ∈ (days.foldl (frontStep sortedProjects) st).slots, ∀ q, sl.project = some q →
      beforeStart q sl.date = false := by
  induction days generalizing st with
  | nil => exact h0
  | cons d ds ih =>
    simp only [List.foldl_cons]
    refine ih (frontStep sortedProjects st d) (fun sl hsl q hq => ?_)
    rcases frontStep_slot_mem sortedProjects st d sl hsl with hmem | hp
    · exact h0 sl hmem q hq
    · exact hp q hq

/-! ### Counting the weekday dates of a window -/

theorem length_le_of_nodup_subset {l1 l2 : List Nat} (hn : l1.Nodup)
    (hs : ∀ x ∈ l1, x ∈ l2) : l1.length ≤ l2.length := by
  calc l1.length = l1.toFinset.card := (List.toFinset_card_of_nodup hn).symm
    _ ≤ l2.toFinset.card := Finset.card_le_card (fun x hx =>
        List.mem_toFinset.mpr (hs x (List.mem_toFinset.mp hx)))
    _ ≤ l2.length := List.toFinset_card_le l2

theorem mem_refList {a b d : Nat} (ha : a ≤ d) (hb : d ≤ b) (hw : isWeekday d = true) :
    d ∈ ((List.range (b + 1 - a)).map (a + ·)).filter (fun x => isWeekday x) := by
  refine List.mem_filter.mpr ⟨?_, hw⟩
  exact List.mem_map.mpr ⟨d - a, List.mem_range.mpr (by omega), by omega⟩

theorem refList_length (a b : Nat) :
    (((List.range (b + 1 - a)).map (a + ·)).filter (fun x => isWeekday x)).length
      = countWeekdaysInclusive a b := by
  rw [countWeekdays_eq_ref]
  rfl

theorem horizon_dates_mem (h0 n d : Nat) :
    d ∈ ((List.range n).map (h0 + ·)).filter (fun x => isWeekday x)
      ↔ (h0 ≤ d ∧ d < h0 + n ∧ isWeekday d = true) := by
  simp only [List.mem_filter, List.mem_map, List.mem_range]
  constructor
  · rintro ⟨⟨i, hi, rfl⟩, hw⟩
    exact ⟨by omega, by omega, hw⟩
  · rintro ⟨h1, h2, hw⟩
    exact ⟨⟨d - h0, by omega, by omega⟩, hw⟩

theorem horizon_dates_pairwise (h0 n : Nat) :
    (((List.range n).map (h0 + ·)).filter (fun x => isWeekday x)).Pairwise (· < ·) := by
  refine List.Pairwise.sublist (List.filter_sublist _) ?_
  refine (List.pairwise_map).mpr ?_
  exact (List.pairwise_lt_range n).imp (fun hab => by omega)

/-! ### Renewal expansion characterization -/

theorem generateRenewal_eq (base : List Project) (startDate numWeeks : Nat) :
    generateRenewalProjects base startDate numWeeks
      = base ++ base.filterMap (renewalFor (horizonEnd startDate numWeeks)) := by
  unfold generateRenewalProjects
  generalize horizonEnd startDate numWeeks = E
  suffices h : ∀ (l acc : List Project),
      l.foldl (fun acc p => acc ++ (renewalFor E p).toList) acc
        = acc ++ l.filterMap (renewalFor E) by
    exact h base base
  intro l
  induction l with
  | nil => intro acc; simp
  | cons p ps ih =>
    intro acc
    simp only [List.foldl_cons, List.filterMap_cons]
    cases hr : renewalFor E p with
    | none => simpa using ih acc
    | some r => simpa [List.append_assoc] using ih (acc ++ [r])

theorem renewalFor_eq_some (E : Nat) (p : Project) (rd : ℚ)
    (hrd : p.renewal_days = some rd) (hpos : 0 < rd) (hle : p.end_date + 1 ≤ E) :
    renewalFor E p
      = some { name := p.name ++ " (Renewal)"
               end_date := p.end_date + 1 + 365
               remaining_days := rd
               start_date := some (p.end_date + 1)
               renewal_days := none
               is_renewal := true
               parent_name := some p.name
               color := p.color
               color_index := p.color_index
               priority := p.priority } := by
  simp only [renewalFor, hrd, if_pos hpos, if_pos hle]

theorem renewalFor_eq_none (E : Nat) (p : Project)
    (h : p.renewal_days = none
      ∨ (∀ rd, p.renewal_days = some rd → rd ≤ 0)
      ∨ E < p.end_date + 1) :
    renewalFor E p = none := by
  rcases h with h | h | h
  · simp [renewalFor, h]
  · cases hrd : p.renewal_days with
    | none => simp [renewalFor, hrd]
    | some rd =>
      have := h rd hrd
      simp only [renewalFor, hrd]
      rw [if_neg (by exact not_lt.mpr this)]
  · cases hrd : p.renewal_days with
    | none => simp [renewalFor, hrd]
    | some rd =>
      simp only [renewalFor, hrd]
      by_cases hpos : 0 < rd
      · rw [if_pos hpos, if_neg (by omega)]
      · rw [if_neg hpos]

theorem expanded_remaining_nonneg (base : List Project) (startDate numWeeks : Nat)
    (hbase : ∀ q ∈ base, 0 ≤ q.remaining_days) :
    ∀ p ∈ generateRenewalProjects base startDate numWeeks, 0 ≤ p.remaining_days := by
  intro p hp
  rw [generateRenewal_eq] at hp
  rcases List.mem_append.mp hp with h | h
  · exact hbase p h
  · rcases List.mem_filterMap.mp h with ⟨q, _, hr⟩
    cases hrd : q.renewal_days with
    | none => rw [renewalFor_eq_none _ _ (Or.inl hrd)] at hr; cases hr
    | some rd =>
      simp only [renewalFor, hrd] at hr
      by_cases hpos : 0 < rd
      · rw [if_pos hpos] at hr
        by_cases hle : q.end_date + 1 ≤ horizonEnd startDate numWeeks
        · rw [if_pos hle] at hr
          simp only [Option.some.injEq] at hr
          subst hr
          exact le_of_lt hpos
        · rw [if_neg hle] at hr; cases hr
      · rw [if_neg hpos] at hr; cases hr

/-! ### Color assignment is the identity on post-init projects -/

theorem assignColorsFrom_id : ∀ (ps : List Project) (i : Nat),
    (∀ p ∈ ps, p.color ≠ none) → assignColorsFrom i ps = ps := by
  intro ps
  induction ps with
  | nil => intro i _; rfl
  | cons p ps ih =>
    intro i h
    unfold assignColorsFrom
    rw [if_neg (h p (List.mem_cons_self p ps))]
    rw [ih (i + 1) (fun q hq => h q (List.mem_cons.mpr (Or.inr hq)))]

theorem runCalls_preserves (s : Scheduler) (calls : List (Nat × String)) :
    (runCalls s calls).base_projects = s.base_projects
      ∧ (runCalls s calls).start_date = s.start_date := by
  induction calls generalizing s with
  | nil => exact ⟨rfl, rfl⟩
  | cons c cs ih =>
    have hstep :
        (match s.create_schedule c.1 c.2 with
          | Except.ok r => r.2
          | Except.error _ => s).base_projects = s.base_projects
        ∧ (match s.create_schedule c.1 c.2 with
            | Except.ok r => r.2
            | Except.error _ => s).start_date = s.start_date := by
      unfold Scheduler.create_schedule
      cases h : createSchedule s.base_projects s.start_date c.1 c.2 with
      | ok sched => simp [Except.map, h]
      | error e => simp [Except.map, h]
    unfold runCalls
    simp only [List.foldl_cons]
    have := ih (match s.create_schedule c.1 c.2 with
      | Except.ok r => r.2
      | Except.error _ => s)
    unfold runCalls at this
    exact ⟨this.1.trans hstep.1, this.2.trans hstep.2⟩

/-! ### Claim theorems -/

/-- C8: `countWeekdaysInclusive(start, end)` equals the reference value
obtained by iterating every date in `[start, end]` and counting the
Monday-Friday ones; in particular it is 0 whenever `end < start`. -/
theorem countWeekdaysInclusive_correct (s e : Nat) :
    countWeekdaysInclusive s e = refCountWeekdays s e
      ∧ (e < s → countWeekdaysInclusive s e = 0) := by
  refine ⟨countWeekdays_eq_ref s e, fun h => ?_⟩
  unfold countWeekdaysInclusive
  rw [if_pos h]

/-- Witness for C8: evaluated at `start = 5`, `end = 2` (an `end < start` pair). -/
theorem countWeekdaysInclusive_correct_witness :
    countWeekdaysInclusive 5 2 = refCountWeekdays 5 2 ∧ countWeekdaysInclusive 5 2 = 0 :=
  ⟨(countWeekdaysInclusive_correct 5 2).1,
   (countWeekdaysInclusive_correct 5 2).2 (by decide)⟩

/-- C6: the renewal expander emits, for precisely the base projects with
positive `renewal_days` whose renewal start `end_date + 1` is within the
horizon, one renewal project with the documented fields (name suffixed with
" (Renewal)", budget `renewal_days`, start the day after the base deadline,
end 365 days later, no chained renewal, `is_renewal` set, parent and priority
inherited), and the output list is the base projects followed by these
renewals in base order. -/
theorem generateRenewalProjects_correct (base : List Project) (startDate numWeeks : Nat) :
    generateRenewalProjects base startDate numWeeks
        = base ++ base.filterMap (renewalFor (horizonEnd startDate numWeeks))
      ∧ (∀ p rd, p.renewal_days = some rd → 0 < rd →
          p.end_date + 1 ≤ horizonEnd startDate numWeeks →
          renewalFor (horizonEnd startDate numWeeks) p
            = some { name := p.name ++ " (Renewal)"
                     end_date := p.end_date + 1 + 365
                     remaining_days := rd
                     start_date := some (p.end_date + 1)
                     renewal_days := none
                     is_renewal := true
                     parent_name := some p.name
                     color := p.color
                     color_index := p.color_index
                     priority := p.priority })
      ∧ (∀ p, (p.renewal_days = none ∨ (∀ rd, p.renewal_days = some rd → rd ≤ 0)
            ∨ horizonEnd startDate numWeeks < p.end_date + 1) →
          renewalFor (horizonEnd startDate numWeeks) p = none) :=
  ⟨generateRenewal_eq base startDate numWeeks,
   fun p rd h1 h2 h3 => renewalFor_eq_some _ p rd h1 h2 h3,
   fun p h => renewalFor_eq_none _ p h⟩

/-- Witness for C6: a base project with `renewal_days = 3`, deadline day 4,
horizon of 60 weeks. -/
theorem generateRenewalProjects_correct_witness :
    generateRenewalProjects
        [{ name := "R", end_date := 4, remaining_days := 2, renewal_days := some 3 }] 0 60
      = [{ name := "R", end_date := 4, remaining_days := 2, renewal_days := some 3 }]
        ++ [({ name := "R", end_date := 4, remaining_days := 2,
               renewal_days := some 3 } : Project)].filterMap (renewalFor (horizonEnd 0 60))
    ∧ renewalFor (horizonEnd 0 60)
        { name := "R", end_date := 4, remaining_days := 2, renewal_days := some 3 }
      = some { name := ({ name := "R", end_date := 4, remaining_days := 2,
                          renewal_days := some 3 } : Project).name ++ " (Renewal)"
               end_date := 4 + 1 + 365
               remaining_days := 3
               start_date := some (4 + 1)
               renewal_days := none
               is_renewal := true
               parent_name := some ({ name := "R", end_date := 4, remaining_days := 2,
                                      renewal_days := some 3 } : Project).name
               color := none
               color_index := 0
               priority := 0 } :=
  ⟨(generateRenewalProjects_correct
      [{ name := "R", end_date := 4, remaining_days := 2, renewal_days := some 3 }] 0 60).1,
   (generateRenewalProjects_correct
      [{ name := "R", end_date := 4, remaining_days := 2, renewal_days := some 3 }] 0 60).2.1
     { name := "R", end_date := 4, remaining_days := 2, renewal_days := some 3 }
     3 rfl (by norm_num) (by decide)⟩

/-- C9: the engine does not mutate the caller-supplied project records: given
projects whose colors were assigned at construction (as `__post_init__`
guarantees), initializing a `Scheduler` and running any sequence of
`create_schedule` calls leaves the stored base project records exactly as
supplied (every field unchanged); budget depletion lives only in the per-run
`rem` map of the loop state. -/
theorem scheduler_no_mutation (ps : List Project) (h0 : Nat)
    (calls : List (Nat × String)) (h : ∀ p ∈ ps, p.color ≠ none) :
    (runCalls (Scheduler.init ps h0) calls).base_projects = ps
      ∧ (runCalls (Scheduler.init ps h0) calls).start_date = h0 := by
  have hb := runCalls_preserves (Scheduler.init ps h0) calls
  have hinit : (Scheduler.init ps h0).base_projects = ps := by
    simp only [Scheduler.init, assignColors]
    exact assignColorsFrom_id ps 0 h
  exact ⟨hb.1.trans hinit, hb.2⟩

/-- Witness for C9: one post-init project, three calls (paced, frontload, and
an invalid method). -/
theorem scheduler_no_mutation_witness :
    (runCalls (Scheduler.init [postInit { name := "A", end_date := 10, remaining_days := 2 }] 0)
        [(1, "paced"), (1, "frontload"), (1, "bogus")]).base_projects
      = [postInit { name := "A", end_date := 10, remaining_days := 2 }]
    ∧ (runCalls (Scheduler.init [postInit { name := "A", end_date := 10, remaining_days := 2 }] 0)
        [(1, "paced"), (1, "frontload"), (1, "bogus")]).start_date = 0 :=
  scheduler_no_mutation [postInit { name := "A", end_date := 10, remaining_days := 2 }] 0
    [(1, "paced"), (1, "frontload"), (1, "bogus")] (by decide)

/-- C1 (amended): on any weekday state of the paced allocator, the must-do
rule qualifies precisely the active projects whose remaining work is at least
`countWeekdaysInclusive(today, end_date)` (equality is not required: projects
whose remaining work exceeds the remaining weekdays also qualify), and when
any project qualifies the selected project is the least qualifier under the
order (smallest `workdaysLeft - remainingWork`, then earliest `end_date`,
then highest `priority`, then smallest `name`). -/
theorem mustDo_rule (d : Nat) (keys : List Project) (rem : Project → Int)
    (credit : Project → ℚ) :
    (∀ p, p ∈ mustDoList d rem (activeList d rem keys)
      ↔ (p ∈ activeList d rem keys ∧ 0 < countWeekdaysInclusive d p.end_date
          ∧ (countWeekdaysInclusive d p.end_date : Int) ≤ rem p))
    ∧ (mustDoList d rem (activeList d rem keys) ≠ [] →
        ∃ p, getPacedProject d keys rem credit = some p
          ∧ p ∈ mustDoList d rem (activeList d rem keys)
          ∧ ∀ q ∈ mustDoList d rem (activeList d rem keys), forceLE d rem p q) := by
  constructor
  · intro p
    unfold mustDoList
    simp [List.mem_filter, and_assoc]
  · intro hne
    rw [getPacedProject_of_mustDo d keys rem credit hne]
    cases hsel : selectBest (forceLE d rem) (mustDoList d rem (activeList d rem keys)) with
    | none => exact absurd ((selectBest_eq_none _ _).mp hsel) hne
    | some p =>
      exact ⟨p, rfl, selectBest_mem _ hsel,
        selectBest_min _ (forceLE_total d rem) (forceLE_trans d rem) hsel⟩

/-- Witness for C1: a project with its deadline 4 workdays away and 5 days of
work qualifies, and is selected. -/
theorem mustDo_rule_witness :
    mustDoList 0 (fun p => p.slots_remaining)
        (activeList 0 (fun p => p.slots_remaining)
          [{ name := "A", end_date := 4, remaining_days := 5 }]) ≠ []
    ∧ ∃ p, getPacedProject 0 [{ name := "A", end_date := 4, remaining_days := 5 }]
          (fun p => p.slots_remaining) (fun _ => 0) = some p
        ∧ p ∈ mustDoList 0 (fun p => p.slots_remaining)
            (activeList 0 (fun p => p.slots_remaining)
              [{ name := "A", end_date := 4, remaining_days := 5 }])
        ∧ ∀ q ∈ mustDoList 0 (fun p => p.slots_remaining)
            (activeList 0 (fun p => p.slots_remaining)
              [{ name := "A", end_date := 4, remaining_days := 5 }]),
            forceLE 0 (fun p => p.slots_remaining) p q :=
  ⟨by decide,
   (mustDo_rule 0 [{ name := "A", end_date := 4, remaining_days := 5 }]
      (fun p => p.slots_remaining) (fun _ => 0)).2 (by decide)⟩

/-- C1 counterexample: today is the deadline of an active project with 5 days
of work left, so `countWeekdaysInclusive(today, end_date) = 1 ≠ 5 =
remainingWork`, yet the must-do rule fires for it (the code tests `>=`, not
equality) and it is selected. -/
theorem mustDo_rule_counterexample :
    mustDoList 0 (fun p => p.slots_remaining)
        (activeList 0 (fun p => p.slots_remaining)
          [{ name := "A", end_date := 0, remaining_days := 5 }])
      = [{ name := "A", end_date := 0, remaining_days := 5 }]
    ∧ countWeekdaysInclusive 0
        ({ name := "A", end_date := 0, remaining_days := 5 } : Project).end_date = 1
    ∧ Project.slots_remaining { name := "A", end_date := 0, remaining_days := 5 } = 5
    ∧ getPacedProject 0 [{ name := "A", end_date := 0, remaining_days := 5 }]
        (fun p => p.slots_remaining) (fun _ => 0)
      = some { name := "A", end_date := 0, remaining_days := 5 } := by
  refine ⟨by decide, by decide, by decide, by decide⟩

/-- C4: on any weekday state of the paced allocator where neither the must-do
rule nor the cumulative feasibility rule fires, the slot is assigned to the
active project with the highest pacing credit among those with credit above
1e-9 (ties broken by earliest `end_date`, then highest `priority`, then
smallest `name`): whenever that eligible set is nonempty some project is
selected, namely its least element under `pacingLE`; and when no active
project has credit above the threshold no project is selected, so the day is
left unassigned even when active projects with remaining work exist. -/
theorem pacing_rule (d : Nat) (keys : List Project) (rem : Project → Int)
    (credit : Project → ℚ)
    (hm : mustDoList d rem (activeList d rem keys) = [])
    (hf : forcedDeadline d rem (activeList d rem keys) = none) :
    ((activeList d rem keys).filter (fun p => decide (PACING_EPS < credit p)) = [] →
        getPacedProject d keys rem credit = none)
    ∧ (∀ p, getPacedProject d keys rem credit = some p →
        p ∈ (activeList d rem keys).filter (fun p => decide (PACING_EPS < credit p))
          ∧ ∀ q ∈ (activeList d rem keys).filter (fun p => decide (PACING_EPS < credit p)),
              pacingLE credit p q)
    ∧ ((activeList d rem keys).filter (fun p => decide (PACING_EPS < credit p)) ≠ [] →
        ∃ p, getPacedProject d keys rem credit = some p
          ∧ p ∈ (activeList d rem keys).filter (fun p => decide (PACING_EPS < credit p))
          ∧ ∀ q ∈ (activeList d rem keys).filter (fun p => decide (PACING_EPS < credit p)),
              pacingLE credit p q) := by
  rw [getPacedProject_of_pacing d keys rem credit hm hf]
  refine ⟨?_, ?_, ?_⟩
  · intro h
    rw [h]
    rfl
  · intro p hp
    exact ⟨selectBest_mem _ hp,
      selectBest_min _ (pacingLE_total credit) (pacingLE_trans credit) hp⟩
  · intro hne
    cases hsel : selectBest (pacingLE credit)
        ((activeList d rem keys).filter (fun p => decide (PACING_EPS < credit p))) with
    | none => exact absurd ((selectBest_eq_none _ _).mp hsel) hne
    | some p =>
      exact ⟨p, rfl, selectBest_mem _ hsel,
        selectBest_min _ (pacingLE_total credit) (pacingLE_trans credit) hsel⟩

/-- Witness for C4: two projects far from their deadlines (no rule 1 or rule 2
firing), one of which is behind pace with credit 1; the eligible set is
nonempty and the existence conjunct exhibits an actual assignment. -/
theorem pacing_rule_witness :
    ((activeList 0 (fun p => p.slots_remaining)
          [{ name := "E", end_date := 20, remaining_days := 3 },
           { name := "F", end_date := 10, remaining_days := 2 }]).filter
        (fun p => decide (PACING_EPS < (if p.name = "E" then (1 : ℚ) else 0))) = [] →
        getPacedProject 0
          [{ name := "E", end_date := 20, remaining_days := 3 },
           { name := "F", end_date := 10, remaining_days := 2 }]
          (fun p => p.slots_remaining)
          (fun p => if p.name = "E" then (1 : ℚ) else 0) = none)
    ∧ (∀ p, getPacedProject 0
          [{ name := "E", end_date := 20, remaining_days := 3 },
           { name := "F", end_date := 10, remaining_days := 2 }]
          (fun p => p.slots_remaining)
          (fun p => if p.name = "E" then (1 : ℚ) else 0) = some p →
        p ∈ (activeList 0 (fun p => p.slots_remaining)
              [{ name := "E", end_date := 20, remaining_days := 3 },
               { name := "F", end_date := 10, remaining_days := 2 }]).filter
            (fun p => decide (PACING_EPS < (if p.name = "E" then (1 : ℚ) else 0)))
          ∧ ∀ q ∈ (activeList 0 (fun p => p.slots_remaining)
              [{ name := "E", end_date := 20, remaining_days := 3 },
               { name := "F", end_date := 10, remaining_days := 2 }]).filter
            (fun p => decide (PACING_EPS < (if p.name = "E" then (1 : ℚ) else 0))),
              pacingLE (fun p => if p.name = "E" then (1 : ℚ) else 0) p q)
    ∧ (∃ p, getPacedProject 0
          [{ name := "E", end_date := 20, remaining_days := 3 },
           { name := "F", end_date := 10, remaining_days := 2 }]
          (fun p => p.slots_remaining)
          (fun p => if p.name = "E" then (1 : ℚ) else 0) = some p
        ∧ p ∈ (activeList 0 (fun p => p.slots_remaining)
              [{ name := "E", end_date := 20, remaining_days := 3 },
               { name := "F", end_date := 10, remaining_days := 2 }]).filter
            (fun p => decide (PACING_EPS < (if p.name = "E" then (1 : ℚ) else 0)))
        ∧ ∀ q ∈ (activeList 0 (fun p => p.slots_remaining)
              [{ name := "E", end_date := 20, remaining_days := 3 },
               { name := "F", end_date := 10, remaining_days := 2 }]).filter
            (fun p => decide (PACING_EPS < (if p.name = "E" then (1 : ℚ) else 0))),
            pacingLE (fun p => if p.name = "E" then (1 : ℚ) else 0) p q) :=
  ⟨(pacing_rule 0
      [{ name := "E", end_date := 20, remaining_days := 3 },
       { name := "F", end_date := 10, remaining_days := 2 }]
      (fun p => p.slots_remaining)
      (fun p => if p.name = "E" then (1 : ℚ) else 0)
      (by decide) (by decide)).1,
   (pacing_rule 0
      [{ name := "E", end_date := 20, remaining_days := 3 },
       { name := "F", end_date := 10, remaining_days := 2 }]
      (fun p => p.slots_remaining)
      (fun p => if p.name = "E" then (1 : ℚ) else 0)
      (by decide) (by decide)).2.1,
   (pacing_rule 0
      [{ name := "E", end_date := 20, remaining_days := 3 },
       { name := "F", end_date := 10, remaining_days := 2 }]
      (fun p => p.slots_remaining)
      (fun p => if p.name = "E" then (1 : ℚ) else 0)
      (by decide) (by decide)).2.2 (by decide)⟩

/-- C5 (amended): the frontload static order sorts by (priority descending,
`end_date` ascending, remainingWork descending) only; the stable sort keeps
projects tied on all three keys in their input-list order, not in name order:
the sorted list is ordered by `frontloadLE`, is a permutation of the input,
and any tied pair appears in input order. -/
theorem frontload_order (ps : List Project) :
    (List.insertionSort frontloadLE ps).Sorted frontloadLE
    ∧ (List.insertionSort frontloadLE ps).Perm ps
    ∧ ∀ a b, [a, b].Sublist ps → a.priority = b.priority → a.end_date = b.end_date →
        a.slots_remaining = b.slots_remaining →
        [a, b].Sublist (List.insertionSort frontloadLE ps) := by
  refine ⟨List.sorted_insertionSort frontloadLE ps, List.perm_insertionSort frontloadLE ps, ?_⟩
  intro a b hsub h1 h2 h3
  refine List.pair_sublist_insertionSort ?_ hsub
  exact Or.inr ⟨by simp only [h1], Or.inr ⟨h2, le_of_eq (by simp only [h3])⟩⟩

/-- Witness for C5: two fully-tied projects listed with the larger name first
stay in input order in the static sort. -/
theorem frontload_order_witness :
    (List.insertionSort frontloadLE
        [{ name := "b", end_date := 30, remaining_days := 1 },
         { name := "a", end_date := 30, remaining_days := 1 }]).Sorted frontloadLE
    ∧ (List.insertionSort frontloadLE
        [{ name := "b", end_date := 30, remaining_days := 1 },
         { name := "a", end_date := 30, remaining_days := 1 }]).Perm
        [{ name := "b", end_date := 30, remaining_days := 1 },
         { name := "a", end_date := 30, remaining_days := 1 }]
    ∧ [({ name := "b", end_date := 30, remaining_days := 1 } : Project),
       { name := "a", end_date := 30, remaining_days := 1 }].Sublist
        (List.insertionSort frontloadLE
          [{ name := "b", end_date := 30, remaining_days := 1 },
           { name := "a", end_date := 30, remaining_days := 1 }]) :=
  ⟨(frontload_order
      [{ name := "b", end_date := 30, remaining_days := 1 },
       { name := "a", end_date := 30, remaining_days := 1 }]).1,
   (frontload_order
      [{ name := "b", end_date := 30, remaining_days := 1 },
       { name := "a", end_date := 30, remaining_days := 1 }]).2.1,
   (frontload_order
      [{ name := "b", end_date := 30, remaining_days := 1 },
       { name := "a", end_date := 30, remaining_days := 1 }]).2.2
     { name := "b", end_date := 30, remaining_days := 1 }
     { name := "a", end_date := 30, remaining_days := 1 }
     (List.Sublist.refl _) rfl rfl rfl⟩

/-- C5 counterexample: two projects tied on priority, `end_date` and remaining
work, input order ["b", "a"]: the frontload schedule assigns "b" first, so the
lexicographically smaller name is not assigned first. -/
theorem frontload_order_counterexample :
    ((createScheduleFrontload
        [{ name := "b", end_date := 30, remaining_days := 1 },
         { name := "a", end_date := 30, remaining_days := 1 }] 0 1).slots.map
        (fun sl => sl.project.map Project.name))
      = [some "b", some "a", none, none, none]
    ∧ ({ name := "a", end_date := 30, remaining_days := 1 } : Project).name
        < ({ name := "b", end_date := 30, remaining_days := 1 } : Project).name
    ∧ ({ name := "a", end_date := 30, remaining_days := 1 } : Project).priority
        = ({ name := "b", end_date := 30, remaining_days := 1 } : Project).priority
    ∧ ({ name := "a", end_date := 30, remaining_days := 1 } : Project).end_date
        = ({ name := "b", end_date := 30, remaining_days := 1 } : Project).end_date
    ∧ ({ name := "a", end_date := 30, remaining_days := 1 } : Project).slots_remaining
        = ({ name := "b", end_date := 30, remaining_days := 1 } : Project).slots_remaining := by
  refine ⟨by decide, ?_, by decide, by decide, by decide⟩
  rw [String.lt_iff_toList_lt]
  decide

/-! ### Schedule-level consequences of the loop invariants -/

theorem createSchedulePaced_dates (base : List Project) (s0 w : Nat) :
    (createSchedulePaced base s0 w).slots.map (fun sl => sl.date)
      = ((List.range (w * 7)).map (s0 + ·)).filter (fun x => isWeekday x) := by
  show (pacedFinal base s0 w).slots.map (fun sl => sl.date) = _
  unfold pacedFinal
  rw [pacedFoldl_dates]
  simp

theorem createScheduleFrontload_dates (base : List Project) (s0 w : Nat) :
    (createScheduleFrontload base s0 w).slots.map (fun sl => sl.date)
      = ((List.range (w * 7)).map (s0 + ·)).filter (fun x => isWeekday x) := by
  show (frontFinal base s0 w).slots.map (fun sl => sl.date) = _
  unfold frontFinal
  rw [frontFoldl_dates]
  simp

theorem createSchedulePaced_conservation (base : List Project) (s0 w : Nat) (p : Project) :
    (pacedFinal base s0 w).rem p
      + (((createSchedulePaced base s0 w).get_project_slots p).length : Int)
      = p.slots_remaining := by
  have h := pacedFoldl_conservation (generateRenewalProjects base s0 w)
      (dedupFirst (generateRenewalProjects base s0 w))
      (fun q => pacingRate s0 q q.slots_remaining)
      ((List.range (w * 7)).map (s0 + ·))
      ⟨fun q => q.slots_remaining, fun _ => 0, []⟩ p
  simp only [List.filter_nil, List.length_nil, Nat.cast_zero, add_zero] at h
  exact h

theorem createScheduleFrontload_conservation (base : List Project) (s0 w : Nat) (p : Project) :
    (frontFinal base s0 w).rem p
      + (((createScheduleFrontload base s0 w).get_project_slots p).length : Int)
      = p.slots_remaining := by
  have h := frontFoldl_conservation
      (List.insertionSort frontloadLE (generateRenewalProjects base s0 w))
      ((List.range (w * 7)).map (s0 + ·))
      ⟨fun q => q.slots_remaining, []⟩ p
  simp only [List.filter_nil, List.length_nil, Nat.cast_zero, add_zero] at h
  exact h

theorem createSchedulePaced_rem_nonneg (base : List Project) (s0 w : Nat) (p : Project)
    (h : 0 ≤ p.slots_remaining) : 0 ≤ (pacedFinal base s0 w).rem p :=
  pacedFoldl_rem_nonneg (generateRenewalProjects base s0 w)
    (dedupFirst (generateRenewalProjects base s0 w))
    (fun q => pacingRate s0 q q.slots_remaining)
    ((List.range (w * 7)).map (s0 + ·))
    ⟨fun q => q.slots_remaining, fun _ => 0, []⟩ p h

theorem createScheduleFrontload_rem_nonneg (base : List Project) (s0 w : Nat) (p : Project)
    (h : 0 ≤ p.slots_remaining) : 0 ≤ (frontFinal base s0 w).rem p :=
  frontFoldl_rem_nonneg
    (List.insertionSort frontloadLE (generateRenewalProjects base s0 w))
    ((List.range (w * 7)).map (s0 + ·))
    ⟨fun q => q.slots_remaining, []⟩ p h

theorem createSchedulePaced_assigned (base : List Project) (s0 w : Nat)
    (sl : ScheduledSlot) (p : Project)
    (hsl : sl ∈ (createSchedulePaced base s0 w).slots) (hp : sl.project = some p) :
    beforeStart p sl.date = false ∧ sl.date ≤ p.end_date :=
  pacedFoldl_slot_mem (generateRenewalProjects base s0 w)
    (dedupFirst (generateRenewalProjects base s0 w))
    (fun q => pacingRate s0 q q.slots_remaining)
    ((List.range (w * 7)).map (s0 + ·))
    ⟨fun q => q.slots_remaining, fun _ => 0, []⟩
    (fun sl h => absurd h (List.not_mem_nil sl)) sl hsl p hp

theorem createScheduleFrontload_assigned (base : List Project) (s0 w : Nat)
    (sl : ScheduledSlot) (p : Project)
    (hsl : sl ∈ (createScheduleFrontload base s0 w).slots) (hp : sl.project = some p) :
    beforeStart p sl.date = false :=
  frontFoldl_slot_mem
    (List.insertionSort frontloadLE (generateRenewalProjects base s0 w))
    ((List.range (w * 7)).map (s0 + ·))
    ⟨fun q => q.slots_remaining, []⟩
    (fun sl h => absurd h (List.not_mem_nil sl)) sl hsl p hp

theorem effStart_le {p : Project} {d s0 : Nat} (hb : beforeStart p d = false) (h0 : s0 ≤ d) :
    max s0 (p.start_date.getD s0) ≤ d := by
  unfold beforeStart at hb
  cases hs : p.start_date with
  | none =>
    simp only [hs, Option.getD_none]
    omega
  | some s =>
    rw [hs] at hb
    simp only [decide_eq_false_iff_not, not_lt] at hb
    simp only [hs, Option.getD_some]
    omega

theorem paced_bounds (base : List Project) (s0 w : Nat) (p : Project)
    (hnn : 0 ≤ p.slots_remaining) :
    (((createSchedulePaced base s0 w).get_project_slots p).length : Int) ≤ p.slots_remaining
    ∧ ((createSchedulePaced base s0 w).get_project_slots p).length
        ≤ countWeekdaysInclusive (max s0 (p.start_date.getD s0))
            (min p.end_date (horizonEnd s0 w))
    ∧ ∀ sl ∈ (createSchedulePaced base s0 w).get_project_slots p, sl.date ≤ p.end_date := by
  have hcons := createSchedulePaced_conservation base s0 w p
  have hpos := createSchedulePaced_rem_nonneg base s0 w p hnn
  have hmapdates := createSchedulePaced_dates base s0 w
  have hsub : List.Sublist
      (((createSchedulePaced base s0 w).get_project_slots p).map (fun sl => sl.date))
      ((createSchedulePaced base s0 w).slots.map (fun sl => sl.date)) :=
    List.Sublist.map _ (List.filter_sublist _)
  refine ⟨by omega, ?_, ?_⟩
  · have hnodup : (((createSchedulePaced base s0 w).get_project_slots p).map
        (fun sl => sl.date)).Nodup :=
      (List.Pairwise.sublist (hmapdates ▸ hsub)
        (horizon_dates_pairwise s0 (w * 7))).imp ne_of_lt
    have hsubset : ∀ d ∈ ((createSchedulePaced base s0 w).get_project_slots p).map
        (fun sl => sl.date),
        d ∈ ((List.range (min p.end_date (horizonEnd s0 w) + 1
              - max s0 (p.start_date.getD s0))).map ((max s0 (p.start_date.getD s0)) + ·)).filter
            (fun x => isWeekday x) := by
      intro d hd
      rcases List.mem_map.mp hd with ⟨sl, hslmem, rfl⟩
      have hslf := List.mem_filter.mp hslmem
      have hproj : sl.project = some p := by simpa using hslf.2
      have hassigned := createSchedulePaced_assigned base s0 w sl p hslf.1 hproj
      have hhor : sl.date ∈ (createSchedulePaced base s0 w).slots.map (fun s => s.date) :=
        List.mem_map.mpr ⟨sl, hslf.1, rfl⟩
      rw [hmapdates] at hhor
      have hh := (horizon_dates_mem s0 (w * 7) sl.date).mp hhor
      refine mem_refList (effStart_le hassigned.1 hh.1) ?_ hh.2.2
      have h1 := hassigned.2
      have h2 := hh.2.1
      unfold horizonEnd
      omega
    calc ((createSchedulePaced base s0 w).get_project_slots p).length
        = (((createSchedulePaced base s0 w).get_project_slots p).map
            (fun sl => sl.date)).length := (List.length_map _ _).symm
      _ ≤ _ := length_le_of_nodup_subset hnodup hsubset
      _ = countWeekdaysInclusive (max s0 (p.start_date.getD s0))
            (min p.end_date (horizonEnd s0 w)) := refList_length _ _
  · intro sl hsl
    have hslf := List.mem_filter.mp hsl
    have hproj : sl.project = some p := by simpa using hslf.2
    exact (createSchedulePaced_assigned base s0 w sl p hslf.1 hproj).2

theorem frontload_bounds (base : List Project) (s0 w : Nat) (p : Project)
    (hnn : 0 ≤ p.slots_remaining) :
    (((createScheduleFrontload base s0 w).get_project_slots p).length : Int) ≤ p.slots_remaining
    ∧ ((createScheduleFrontload base s0 w).get_project_slots p).length
        ≤ countWeekdaysInclusive (max s0 (p.start_date.getD s0)) (horizonEnd s0 w) := by
  have hcons := createScheduleFrontload_conservation base s0 w p
  have hpos := createScheduleFrontload_rem_nonneg base s0 w p hnn
  have hmapdates := createScheduleFrontload_dates base s0 w
  have hsub : List.Sublist
      (((createScheduleFrontload base s0 w).get_project_slots p).map (fun sl => sl.date))
      ((createScheduleFrontload base s0 w).slots.map (fun sl => sl.date)) :=
    List.Sublist.map _ (List.filter_sublist _)
  refine ⟨by omega, ?_⟩
  have hnodup : (((createScheduleFrontload base s0 w).get_project_slots p).map
      (fun sl => sl.date)).Nodup :=
    (List.Pairwise.sublist (hmapdates ▸ hsub)
      (horizon_dates_pairwise s0 (w * 7))).imp ne_of_lt
  have hsubset : ∀ d ∈ ((createScheduleFrontload base s0 w).get_project_slots p).map
      (fun sl => sl.date),
      d ∈ ((List.range (horizonEnd s0 w + 1 - max s0 (p.start_date.getD s0))).map
          ((max s0 (p.start_date.getD s0)) + ·)).filter (fun x => isWeekday x) := by
    intro d hd
    rcases List.mem_map.mp hd with ⟨sl, hslmem, rfl⟩
    have hslf := List.mem_filter.mp hslmem
    have hproj : sl.project = some p := by simpa using hslf.2
    have hassigned := createScheduleFrontload_assigned base s0 w sl p hslf.1 hproj
    have hhor : sl.date ∈ (createScheduleFrontload base s0 w).slots.map (fun s => s.date) :=
      List.mem_map.mpr ⟨sl, hslf.1, rfl⟩
    rw [hmapdates] at hhor
    have hh := (horizon_dates_mem s0 (w * 7) sl.date).mp hhor
    refine mem_refList (effStart_le hassigned hh.1) ?_ hh.2.2
    have h2 := hh.2.1
    unfold horizonEnd
    omega
  calc ((createScheduleFrontload base s0 w).get_project_slots p).length
      = (((createScheduleFrontload base s0 w).get_project_slots p).map
          (fun sl => sl.date)).length := (List.length_map _ _).symm
    _ ≤ _ := length_le_of_nodup_subset hnodup hsubset
    _ = countWeekdaysInclusive (max s0 (p.start_date.getD s0)) (horizonEnd s0 w) :=
        refList_length _ _

/-- C7: every schedule produced by `createSchedule` (either method, any
project list, any positive number of weeks) has slot dates strictly
ascending (hence no duplicates), contains a slot exactly for the
Monday-to-Friday dates of `[start, start + 7*numWeeks)`, and has no
weekend slot. -/
theorem schedule_calendar (base : List Project) (s0 w : Nat) (method : String)
    (sched : Schedule) (_hw : 0 < w)
    (hok : createSchedule base s0 w method = Except.ok sched) :
    (sched.slots.map (fun sl => sl.date)).Pairwise (· < ·)
    ∧ (∀ d, d ∈ sched.slots.map (fun sl => sl.date)
        ↔ (s0 ≤ d ∧ d < horizonEnd s0 w ∧ isWeekday d = true))
    ∧ ∀ sl ∈ sched.slots, isWeekday sl.date = true := by
  have hdates : sched.slots.map (fun sl => sl.date)
      = ((List.range (w * 7)).map (s0 + ·)).filter (fun x => isWeekday x) := by
    unfold createSchedule at hok
    by_cases h1 : method = "paced"
    · rw [if_pos h1] at hok
      cases hok
      exact createSchedulePaced_dates base s0 w
    · rw [if_neg h1] at hok
      by_cases h2 : method = "frontload"
      · rw [if_pos h2] at hok
        cases hok
        exact createScheduleFrontload_dates base s0 w
      · rw [if_neg h2] at hok
        cases hok
  refine ⟨?_, ?_, ?_⟩
  · rw [hdates]
    exact horizon_dates_pairwise s0 (w * 7)
  · intro d
    rw [hdates, horizon_dates_mem]
    unfold horizonEnd
    constructor
    · rintro ⟨ha, hb, hc⟩
      exact ⟨ha, by omega, hc⟩
    · rintro ⟨ha, hb, hc⟩
      exact ⟨ha, by omega, hc⟩
  · intro sl hsl
    have hmem : sl.date ∈ sched.slots.map (fun s => s.date) :=
      List.mem_map.mpr ⟨sl, hsl, rfl⟩
    rw [hdates] at hmem
    exact ((horizon_dates_mem s0 (w * 7) sl.date).mp hmem).2.2

/-- Witness for C7: the empty project list, one week, paced method. -/
theorem schedule_calendar_witness :
    ((createSchedulePaced [] 0 1).slots.map (fun sl => sl.date)).Pairwise (· < ·)
    ∧ (∀ d, d ∈ (createSchedulePaced [] 0 1).slots.map (fun sl => sl.date)
        ↔ (0 ≤ d ∧ d < horizonEnd 0 1 ∧ isWeekday d = true))
    ∧ ∀ sl ∈ (createSchedulePaced [] 0 1).slots, isWeekday sl.date = true :=
  schedule_calendar [] 0 1 "paced" (createSchedulePaced [] 0 1) (by decide) rfl

/-- C2 (amended): for every produced schedule and every project of the
expanded set (well-formed base budgets assumed, as the data model requires),
the assigned slot count is at most `floor(remaining_days)` and at most the
weekday count of the window `[max(effectiveStart, horizonStart), horizonEnd]`;
under the paced method the window is additionally clipped at `end_date` and no
slot is dated after `end_date`.  The frontload method does not check
`end_date`, so the `end_date`-clipped bound holds only for the paced method. -/
theorem schedule_slot_bounds (base : List Project) (s0 w : Nat) (method : String)
    (sched : Schedule)
    (hok : createSchedule base s0 w method = Except.ok sched)
    (hbase : ∀ q ∈ base, 0 ≤ q.remaining_days) :
    ∀ p ∈ generateRenewalProjects base s0 w,
      ((sched.get_project_slots p).length : Int) ≤ p.slots_remaining
      ∧ (sched.get_project_slots p).length
          ≤ countWeekdaysInclusive (max s0 (p.start_date.getD s0)) (horizonEnd s0 w)
      ∧ (method = "paced" →
          (sched.get_project_slots p).length
            ≤ countWeekdaysInclusive (max s0 (p.start_date.getD s0))
                (min p.end_date (horizonEnd s0 w))
          ∧ ∀ sl ∈ sched.get_project_slots p, sl.date ≤ p.end_date) := by
  intro p hp
  have hnn : 0 ≤ p.slots_remaining :=
    ratTrunc_nonneg (expanded_remaining_nonneg base s0 w hbase p hp)
  unfold createSchedule at hok
  by_cases h1 : method = "paced"
  · rw [if_pos h1] at hok
    cases hok
    have hb := paced_bounds base s0 w p hnn
    refine ⟨hb.1, ?_, fun _ => ⟨hb.2.1, hb.2.2⟩⟩
    refine le_trans hb.2.1 ?_
    rw [countWeekdays_eq_ref, countWeekdays_eq_ref]
    unfold refCountWeekdays
    refine length_le_of_nodup_subset ?_ ?_
    · exact (List.Pairwise.sublist (List.Sublist.refl _)
        (horizon_dates_pairwise _ _)).imp ne_of_lt
    · intro d hd
      have := (horizon_dates_mem _ _ d).mp hd
      refine (horizon_dates_mem _ _ d).mpr ⟨this.1, by omega, this.2.2⟩
  · rw [if_neg h1] at hok
    by_cases h2 : method = "frontload"
    · rw [if_pos h2] at hok
      cases hok
      have hb := frontload_bounds base s0 w p hnn
      exact ⟨hb.1, hb.2, fun hpm => absurd hpm h1⟩
    · rw [if_neg h2] at hok
      cases hok

/-- Witness for C2: a single project with a 2-day budget due on day 4, one
week, paced method, instantiated at that project. -/
theorem schedule_slot_bounds_witness :
    (((createSchedulePaced [{ name := "A", end_date := 4, remaining_days := 2 }] 0 1).get_project_slots
          { name := "A", end_date := 4, remaining_days := 2 }).length : Int)
        ≤ ({ name := "A", end_date := 4, remaining_days := 2 } : Project).slots_remaining
    ∧ ((createSchedulePaced [{ name := "A", end_date := 4, remaining_days := 2 }] 0 1).get_project_slots
          { name := "A", end_date := 4, remaining_days := 2 }).length
        ≤ countWeekdaysInclusive
            (max 0 (({ name := "A", end_date := 4, remaining_days := 2 } : Project).start_date.getD 0))
            (horizonEnd 0 1)
    ∧ ("paced" = "paced" →
        ((createSchedulePaced [{ name := "A", end_date := 4, remaining_days := 2 }] 0 1).get_project_slots
            { name := "A", end_date := 4, remaining_days := 2 }).length
          ≤ countWeekdaysInclusive
              (max 0 (({ name := "A", end_date := 4, remaining_days := 2 } : Project).start_date.getD 0))
              (min ({ name := "A", end_date := 4, remaining_days := 2 } : Project).end_date (horizonEnd 0 1))
        ∧ ∀ sl ∈ (createSchedulePaced [{ name := "A", end_date := 4, remaining_days := 2 }] 0 1).get_project_slots
            { name := "A", end_date := 4, remaining_days := 2 },
            sl.date ≤ ({ name := "A", end_date := 4, remaining_days := 2 } : Project).end_date) :=
  schedule_slot_bounds [{ name := "A", end_date := 4, remaining_days := 2 }] 0 1 "paced"
    (createSchedulePaced [{ name := "A", end_date := 4, remaining_days := 2 }] 0 1)
    rfl (by decide)
    { name := "A", end_date := 4, remaining_days := 2 }
    (by rw [generateRenewal_eq]
        exact List.mem_append_left _ (List.mem_cons_self _ _))

/-- C2 counterexample: frontload, one project with 3 days of budget due on the
horizon start day (a Monday).  The code assigns 3 slots, on days 0, 1 and 2,
although `min(floor(remaining_days), countWeekdaysInclusive(max(effStart,
horizonStart), min(end_date, horizonEnd))) = 1`, and two slots are dated after
the project's `end_date`. -/
theorem schedule_slot_bounds_counterexample :
    (((createScheduleFrontload [{ name := "A", end_date := 0, remaining_days := 3 }] 0 1).get_project_slots
        { name := "A", end_date := 0, remaining_days := 3 }).length : Int) = 3
    ∧ ((createScheduleFrontload [{ name := "A", end_date := 0, remaining_days := 3 }] 0 1).get_project_slots
        { name := "A", end_date := 0, remaining_days := 3 }).map (fun sl => sl.date) = [0, 1, 2]
    ∧ countWeekdaysInclusive
        (max 0 (({ name := "A", end_date := 0, remaining_days := 3 } : Project).start_date.getD 0))
        (min ({ name := "A", end_date := 0, remaining_days := 3 } : Project).end_date (horizonEnd 0 1)) = 1
    ∧ ¬ ((((createScheduleFrontload [{ name := "A", end_date := 0, remaining_days := 3 }] 0 1).get_project_slots
          { name := "A", end_date := 0, remaining_days := 3 }).length : Int)
        ≤ min (Project.slots_remaining { name := "A", end_date := 0, remaining_days := 3 })
            (countWeekdaysInclusive
              (max 0 (({ name := "A", end_date := 0, remaining_days := 3 } : Project).start_date.getD 0))
              (min ({ name := "A", end_date := 0, remaining_days := 3 } : Project).end_date
                (horizonEnd 0 1)) : Int)) := by
  refine ⟨by decide, by decide, by decide, by decide⟩

/-- C10: a project of the expanded set with `0 ≤ remaining_days < 1` has an
integer budget of 0, receives no slot under either method, and its statistics
entry reports zero assigned slots, `fully_scheduled = true`, and no last
scheduled date. -/
theorem zero_budget_projects (base : List Project) (s0 w : Nat) (method : String)
    (sched : Schedule) (p : Project)
    (hok : createSchedule base s0 w method = Except.ok sched)
    (hmem : p ∈ generateRenewalProjects base s0 w)
    (h0 : 0 ≤ p.remaining_days) (h1 : p.remaining_days < 1) :
    p.slots_remaining = 0
    ∧ sched.get_project_slots p = []
    ∧ ∀ st ∈ getStatistics (generateRenewalProjects base s0 w) sched, st.project = p →
        st.total_slots_assigned = 0 ∧ st.fully_scheduled = true
          ∧ st.last_scheduled_date = none := by
  have hzero : p.slots_remaining = 0 := ratTrunc_eq_zero h0 h1
  have hempty : sched.get_project_slots p = [] := by
    have hnn : 0 ≤ p.slots_remaining := le_of_eq hzero.symm
    unfold createSchedule at hok
    by_cases hm1 : method = "paced"
    · rw [if_pos hm1] at hok
      cases hok
      have hcons := createSchedulePaced_conservation base s0 w p
      have hpos := createSchedulePaced_rem_nonneg base s0 w p hnn
      rw [hzero] at hcons
      have : ((createSchedulePaced base s0 w).get_project_slots p).length = 0 := by omega
      exact List.length_eq_zero.mp this
    · rw [if_neg hm1] at hok
      by_cases hm2 : method = "frontload"
      · rw [if_pos hm2] at hok
        cases hok
        have hcons := createScheduleFrontload_conservation base s0 w p
        have hpos := createScheduleFrontload_rem_nonneg base s0 w p hnn
        rw [hzero] at hcons
        have : ((createScheduleFrontload base s0 w).get_project_slots p).length = 0 := by omega
        exact List.length_eq_zero.mp this
      · rw [if_neg hm2] at hok
        cases hok
  refine ⟨hzero, hempty, ?_⟩
  intro st hst hproj
  unfold getStatistics at hst
  simp only [List.mem_map] at hst
  rcases hst with ⟨q, _, rfl⟩
  have hqp : q = p := hproj
  subst hqp
  rw [hempty]
  refine ⟨rfl, ?_, rfl⟩
  unfold ProjectStats.fully_scheduled
  simp [hzero, hempty]

/-- Witness for C10: a project with a fractional budget of 1/2, paced method. -/
theorem zero_budget_projects_witness :
    Project.slots_remaining { name := "H", end_date := 10, remaining_days := 1/2 } = 0
    ∧ (createSchedulePaced [{ name := "H", end_date := 10, remaining_days := 1/2 }] 0 1).get_project_slots
        { name := "H", end_date := 10, remaining_days := 1/2 } = []
    ∧ ∀ st ∈ getStatistics
        (generateRenewalProjects [{ name := "H", end_date := 10, remaining_days := 1/2 }] 0 1)
        (createSchedulePaced [{ name := "H", end_date := 10, remaining_days := 1/2 }] 0 1),
        st.project = { name := "H", end_date := 10, remaining_days := 1/2 } →
        st.total_slots_assigned = 0 ∧ st.fully_scheduled = true
          ∧ st.last_scheduled_date = none :=
  zero_budget_projects [{ name := "H", end_date := 10, remaining_days := 1/2 }] 0 1 "paced"
    (createSchedulePaced [{ name := "H", end_date := 10, remaining_days := 1/2 }] 0 1)
    { name := "H", end_date := 10, remaining_days := 1/2 }
    rfl
    (by rw [generateRenewal_eq]
        exact List.mem_append_left _ (List.mem_cons_self _ _))
    (by norm_num) (by norm_num)

/-- C3 evaluation: `createSchedule` performs no input validation.  On a
project with negative `remaining_days`, and on a project whose `end_date`
precedes its `start_date`, both methods return a `Schedule` (embedded as
`Except.ok`) instead of failing with a validation error. -/
theorem createSchedule_no_validation :
    (createSchedule [{ name := "N", end_date := 10, remaining_days := -1 }] 0 1
        "paced").toOption.isSome = true
    ∧ (createSchedule [{ name := "N", end_date := 10, remaining_days := -1 }] 0 1
        "frontload").toOption.isSome = true
    ∧ (createSchedule [{ name := "D", end_date := 0, remaining_days := 2, start_date := some 5 }]
        0 1 "paced").toOption.isSome = true
    ∧ (createSchedule [{ name := "D", end_date := 0, remaining_days := 2, start_date := some 5 }]
        0 1 "frontload").toOption.isSome = true
    ∧ ({ name := "N", end_date := 10, remaining_days := -1 } : Project).remaining_days < 0
    ∧ ({ name := "D", end_date := 0, remaining_days := 2, start_date := some 5 } : Project).end_date
        < ({ name := "D", end_date := 0, remaining_days := 2, start_date := some 5 } : Project).start_date.getD 0 := by
  refine ⟨rfl, rfl, rfl, rfl, by norm_num, by decide⟩

end Planner
